import Mathlib

/-!
Shallow embedding of the Geenie risk engine (src/app.py) over exact rationals.

The engine operates on an in-memory, date-sorted, NaN-dropped price series
(app.py lines 83-89); we model the series as a `List ℚ`, an entry per row.
Missing/NaN values produced by pandas operations are modelled as `none` in
`List (Option ℚ)`, and pandas `.dropna()` as `Option.filterMap id`.
Prices are assumed strictly positive, as in the spec's data model (§3); under
that assumption no NaN/Inf can arise from divisions, so rational division is a
faithful model of the float division in the source.

Annualized volatility multiplies by `sqrt 252`, which is irrational; wherever
a volatility appears we carry its square (the annualized variance,
`var * 252`) instead.  Squaring is strictly monotone on nonnegative values,
so definedness (the NaN pattern) is unchanged; the claims proved about the
regime pipeline do not depend on the numeric scale of the volatility values.
-/

namespace Geenie

/-! ## SeriesPreparer / return computation (app.py line 94) -/

/-- `price_series.pct_change()`: entry 0 is NaN (`none`); entry `i ≥ 1` is
`(price[i] - price[i-1]) / price[i-1] = price[i]/price[i-1] - 1`. -/
def pctChange (p : List ℚ) : List (Option ℚ) :=
  none :: List.zipWith (fun prev cur => some (cur / prev - 1)) p p.tail

/-- pandas `.dropna()`: keep the defined entries, preserving order. -/
def dropna {α : Type} (l : List (Option α)) : List α :=
  l.filterMap id

/-- `returns = price_series.pct_change().dropna()` (app.py line 94). -/
def returns (p : List ℚ) : List ℚ :=
  dropna (pctChange p)

theorem filterMap_id_zipWith_some (f : ℚ → ℚ → ℚ) :
    ∀ (l₁ l₂ : List ℚ),
      List.filterMap id (List.zipWith (fun a b => some (f a b)) l₁ l₂) =
        List.zipWith f l₁ l₂ := by
  intro l₁
  induction l₁ with
  | nil => intro l₂; simp
  | cons a t ih =>
    intro l₂
    cases l₂ with
    | nil => simp
    | cons b t₂ => simp [List.zipWith, ih]

/-- `returns` computes the two-argument `zipWith` of consecutive prices. -/
theorem returns_eq_zipWith (p : List ℚ) :
    returns p = List.zipWith (fun prev cur => cur / prev - 1) p p.tail := by
  simp [returns, dropna, pctChange, filterMap_id_zipWith_some]

/-! ## RiskMetricsCalculator: drawdown (app.py lines 98-99) -/

/-- `Series.cummax()` continued from an accumulated maximum `m`. -/
def cummaxFrom (m : ℚ) : List ℚ → List ℚ
  | [] => []
  | x :: xs => max m x :: cummaxFrom (max m x) xs

/-- `price_series.cummax()` (app.py line 98): running maximum of the series. -/
def cummax : List ℚ → List ℚ
  | [] => []
  | x :: xs => x :: cummaxFrom x xs

/-- `drawdown = price_series / price_series.cummax() - 1` (app.py line 98). -/
def drawdown (p : List ℚ) : List ℚ :=
  List.zipWith (fun x m => x / m - 1) p (cummax p)

/-- pandas `Series.min()`: NaN (`none`) on an empty series, otherwise the
least element. -/
def seriesMin : List ℚ → Option ℚ
  | [] => none
  | x :: xs => some (xs.foldl min x)

/-- `max_drawdown = drawdown.min()` (app.py line 99). -/
def max_drawdown (p : List ℚ) : Option ℚ :=
  seriesMin (drawdown p)

/-- The maximum of a list (`0` for the empty list, which never occurs in use);
`listMax (p.take (i+1))` is the spec's `runningMax(price[0..i])`. -/
def listMax : List ℚ → ℚ
  | [] => 0
  | x :: xs => xs.foldl max x

theorem length_cummaxFrom (m : ℚ) (l : List ℚ) :
    (cummaxFrom m l).length = l.length := by
  induction l generalizing m with
  | nil => rfl
  | cons x xs ih => simp [cummaxFrom, ih]

theorem length_cummax (p : List ℚ) : (cummax p).length = p.length := by
  cases p with
  | nil => rfl
  | cons x xs => simp [cummax, length_cummaxFrom]

theorem foldl_max_cons (m x : ℚ) (l : List ℚ) :
    (x :: l).foldl max m = l.foldl max (max m x) := rfl

theorem getElem_cummaxFrom (m : ℚ) (l : List ℚ) (i : ℕ) (hi : i < l.length) :
    (cummaxFrom m l).get ⟨i, by rw [length_cummaxFrom]; exact hi⟩ =
      (l.take (i + 1)).foldl max m := by
  induction l generalizing m i with
  | nil => exact absurd hi (by simp)
  | cons x xs ih =>
    cases i with
    | zero => simp [cummaxFrom]
    | succ j =>
      have hj : j < xs.length := by simpa using hi
      simpa [cummaxFrom, foldl_max_cons] using ih (max m x) j hj

theorem getElem_cummax (p : List ℚ) (i : ℕ) (hi : i < p.length) :
    (cummax p).get ⟨i, by rw [length_cummax]; exact hi⟩ = listMax (p.take (i + 1)) := by
  cases p with
  | nil => exact absurd hi (by simp)
  | cons x xs =>
    cases i with
    | zero => simp [cummax, listMax]
    | succ j =>
      have hj : j < xs.length := by simpa using hi
      simpa [cummax, listMax, foldl_max_cons] using getElem_cummaxFrom x xs j hj

theorem le_foldl_max (m : ℚ) (l : List ℚ) : m ≤ l.foldl max m := by
  induction l generalizing m with
  | nil => exact le_rfl
  | cons x xs ih => exact le_trans (le_max_left m x) (ih (max m x))

theorem mem_le_foldl_max (m : ℚ) (l : List ℚ) :
    ∀ y ∈ l, y ≤ l.foldl max m := by
  induction l generalizing m with
  | nil => intro y hy; exact absurd hy (by simp)
  | cons x xs ih =>
    intro y hy
    rcases List.mem_cons.mp hy with rfl | hy'
    · exact le_trans (le_max_right m y) (le_foldl_max (max m y) xs)
    · exact ih (max m x) y hy'

theorem foldl_max_mem (m : ℚ) (l : List ℚ) :
    l.foldl max m = m ∨ l.foldl max m ∈ l := by
  induction l generalizing m with
  | nil => exact Or.inl rfl
  | cons x xs ih =>
    rcases ih (max m x) with h | h
    · rcases max_choice m x with hm | hm
      · exact Or.inl (by rw [foldl_max_cons, h, hm])
      · exact Or.inr (by rw [foldl_max_cons, h, hm]; exact List.mem_cons_self x xs)
    · exact Or.inr (List.mem_cons_of_mem x h)

theorem listMax_mem (l : List ℚ) (hne : l ≠ []) : listMax l ∈ l := by
  cases l with
  | nil => exact absurd rfl hne
  | cons x xs =>
    rcases foldl_max_mem x xs with h | h
    · show xs.foldl max x ∈ x :: xs
      rw [h]; exact List.mem_cons_self x xs
    · exact List.mem_cons_of_mem x h

theorem le_listMax (l : List ℚ) (y : ℚ) (hy : y ∈ l) : y ≤ listMax l := by
  cases l with
  | nil => exact absurd hy (by simp)
  | cons x xs =>
    rcases List.mem_cons.mp hy with rfl | hy'
    · exact le_foldl_max y xs
    · exact mem_le_foldl_max x xs y hy'

theorem length_returns (p : List ℚ) : (returns p).length = p.length - 1 := by
  rw [returns_eq_zipWith, List.length_zipWith, List.length_tail]
  omega

theorem getElem_returns (p : List ℚ) (j : ℕ) (hj : j + 1 < p.length) :
    (returns p).get ⟨j, by rw [length_returns]; omega⟩ =
      p.get ⟨j + 1, hj⟩ / p.get ⟨j, by omega⟩ - 1 := by
  have h1 : j < p.length := by omega
  have h2 : j < p.tail.length := by rw [List.length_tail]; omega
  simp only [List.get_eq_getElem, returns_eq_zipWith]
  rw [List.getElem_zipWith, List.getElem_tail]

/-- C1: for a price series with at least two entries (all prices positive, per
the spec's data model), the derived return series has exactly `n - 1` entries
and the return at series index `i` (stored at position `i - 1`) equals
`price[i] / price[i-1] - 1` for `i = 1 .. n-1`. -/
theorem C1_returns_length_values (p : List ℚ) (h2 : 2 ≤ p.length)
    (hpos : ∀ x ∈ p, 0 < x) :
    (returns p).length = p.length - 1 ∧
      ∀ i, 1 ≤ i → i < p.length →
        (returns p).getD (i - 1) 0 = p.getD i 0 / p.getD (i - 1) 0 - 1 := by
  refine ⟨length_returns p, ?_⟩
  intro i h1 hi
  obtain ⟨j, rfl⟩ : ∃ j, i = j + 1 := ⟨i - 1, by omega⟩
  have hj : j < (returns p).length := by rw [length_returns]; omega
  have hj1 : j < p.length := by omega
  have hjs : j + 1 - 1 = j := by omega
  rw [hjs, List.getD_eq_getElem _ _ hj, List.getD_eq_getElem _ _ hi,
    List.getD_eq_getElem _ _ hj1]
  have := getElem_returns p j hi
  simpa only [List.get_eq_getElem] using this

/-- Witness for C1 at the concrete series `[100, 102, 101]`. -/
theorem C1_witness :
    (2 ≤ ([100, 102, 101] : List ℚ).length ∧ ∀ x ∈ ([100, 102, 101] : List ℚ), 0 < x) ∧
      ((returns [100, 102, 101]).length = ([100, 102, 101] : List ℚ).length - 1 ∧
        ∀ i, 1 ≤ i → i < ([100, 102, 101] : List ℚ).length →
          (returns [100, 102, 101]).getD (i - 1) 0 =
            ([100, 102, 101] : List ℚ).getD i 0 /
              ([100, 102, 101] : List ℚ).getD (i - 1) 0 - 1) :=
  ⟨⟨by decide, by decide⟩, C1_returns_length_values [100, 102, 101] (by decide) (by decide)⟩

theorem length_drawdown (p : List ℚ) : (drawdown p).length = p.length := by
  rw [drawdown, List.length_zipWith, length_cummax, min_self]

theorem getElem_drawdown (p : List ℚ) (i : ℕ) (hi : i < p.length) :
    (drawdown p).get ⟨i, by rw [length_drawdown]; exact hi⟩ =
      p.get ⟨i, hi⟩ / listMax (p.take (i + 1)) - 1 := by
  have hc : i < (cummax p).length := by rw [length_cummax]; exact hi
  have hcm := getElem_cummax p i hi
  simp only [List.get_eq_getElem] at hcm ⊢
  simp only [drawdown]
  rw [List.getElem_zipWith, hcm]

theorem take_pos_ne_nil (p : List ℚ) (i : ℕ) (hi : i < p.length) :
    p.take (i + 1) ≠ [] := by
  intro h
  have hlen := congrArg List.length h
  rw [List.length_take, List.length_nil] at hlen
  rcases Nat.min_eq_zero_iff.mp hlen with h1 | h1 <;> omega

theorem listMax_take_pos (p : List ℚ) (hpos : ∀ x ∈ p, 0 < x) (i : ℕ)
    (hi : i < p.length) : 0 < listMax (p.take (i + 1)) := by
  have hmem := listMax_mem (p.take (i + 1)) (take_pos_ne_nil p i hi)
  exact hpos _ (List.mem_of_mem_take hmem)

theorem getElem_le_listMax_take (p : List ℚ) (i : ℕ) (hi : i < p.length) :
    p.get ⟨i, hi⟩ ≤ listMax (p.take (i + 1)) := by
  apply le_listMax
  have hlen : i < (p.take (i + 1)).length := by simp; omega
  have h2 : (p.take (i + 1)).get ⟨i, hlen⟩ = p.get ⟨i, hi⟩ := by
    simp only [List.get_eq_getElem]
    exact List.getElem_take p
  exact h2 ▸ List.get_mem (p.take (i + 1)) i hlen

theorem foldl_min_cons (m x : ℚ) (l : List ℚ) :
    (x :: l).foldl min m = l.foldl min (min m x) := rfl

theorem foldl_min_le (m : ℚ) (l : List ℚ) : l.foldl min m ≤ m := by
  induction l generalizing m with
  | nil => exact le_rfl
  | cons x xs ih => exact le_trans (ih (min m x)) (min_le_left m x)

theorem foldl_min_le_mem (m : ℚ) (l : List ℚ) :
    ∀ y ∈ l, l.foldl min m ≤ y := by
  induction l generalizing m with
  | nil => intro y hy; exact absurd hy (by simp)
  | cons x xs ih =>
    intro y hy
    rcases List.mem_cons.mp hy with rfl | hy'
    · exact le_trans (foldl_min_le (min m y) xs) (min_le_right m y)
    · exact ih (min m x) y hy'

theorem foldl_min_mem (m : ℚ) (l : List ℚ) :
    l.foldl min m = m ∨ l.foldl min m ∈ l := by
  induction l generalizing m with
  | nil => exact Or.inl rfl
  | cons x xs ih =>
    rcases ih (min m x) with h | h
    · rcases min_choice m x with hm | hm
      · exact Or.inl (by rw [foldl_min_cons, h, hm])
      · refine Or.inr ?_
        rw [foldl_min_cons, h, hm]
        exact List.mem_cons_self x xs
    · exact Or.inr (List.mem_cons_of_mem x h)

/-- C2: for a price series with all prices strictly positive, the drawdown
curve has one value per price, the value at index `i` equals
`price[i] / runningMax(price[0..i]) - 1`, every value is `≤ 0`, the value is
exactly `0` wherever the price equals its running maximum, and
`max_drawdown` is the minimum of the curve (a member that bounds every
value from below). -/
theorem C2_drawdown_spec (p : List ℚ) (hpos : ∀ x ∈ p, 0 < x) :
    (drawdown p).length = p.length ∧
    (∀ i, i < p.length →
      (drawdown p).getD i 0 = p.getD i 0 / listMax (p.take (i + 1)) - 1) ∧
    (∀ v ∈ drawdown p, v ≤ 0) ∧
    (∀ i, i < p.length → p.getD i 0 = listMax (p.take (i + 1)) →
      (drawdown p).getD i 0 = 0) ∧
    (∀ m, max_drawdown p = some m → m ∈ drawdown p ∧ ∀ v ∈ drawdown p, m ≤ v) := by
  have hval : ∀ i, i < p.length →
      (drawdown p).getD i 0 = p.getD i 0 / listMax (p.take (i + 1)) - 1 := by
    intro i hi
    have hd : i < (drawdown p).length := by rw [length_drawdown]; exact hi
    rw [List.getD_eq_getElem _ _ hd, List.getD_eq_getElem _ _ hi]
    have hdd := getElem_drawdown p i hi
    simpa only [List.get_eq_getElem] using hdd
  refine ⟨length_drawdown p, hval, ?_, ?_, ?_⟩
  · intro v hv
    obtain ⟨i, hi, hvi⟩ := List.mem_iff_getElem.mp hv
    have hip : i < p.length := by rw [length_drawdown] at hi; exact hi
    have hdd := getElem_drawdown p i hip
    simp only [List.get_eq_getElem] at hdd
    rw [hdd] at hvi
    have hM : 0 < listMax (p.take (i + 1)) := listMax_take_pos p hpos i hip
    have hle := getElem_le_listMax_take p i hip
    simp only [List.get_eq_getElem] at hle
    have : p[i] / listMax (p.take (i + 1)) ≤ 1 := (div_le_one hM).mpr hle
    rw [← hvi]
    linarith
  · intro i hi heq
    rw [hval i hi, heq]
    have hM : 0 < listMax (p.take (i + 1)) := listMax_take_pos p hpos i hi
    rw [div_self (ne_of_gt hM)]
    ring
  · intro m hm
    simp only [max_drawdown] at hm
    rcases hdd : drawdown p with _ | ⟨d, ds⟩ <;> rw [hdd] at hm
    · exact absurd hm (by simp [seriesMin])
    · simp only [seriesMin, Option.some.injEq] at hm
      subst hm
      constructor
      · rcases foldl_min_mem d ds with h | h
        · rw [h]; exact List.mem_cons_self d ds
        · exact List.mem_cons_of_mem d h
      · intro v hv
        rcases List.mem_cons.mp hv with hveq | hv'
        · rw [hveq]; exact foldl_min_le d ds
        · exact foldl_min_le_mem d ds v hv'

/-- Witness for C2 at the concrete series `[100, 102, 101, 105, 103]`. -/
theorem C2_witness :
    (∀ x ∈ ([100, 102, 101, 105, 103] : List ℚ), 0 < x) ∧
      ((drawdown [100, 102, 101, 105, 103]).length =
          ([100, 102, 101, 105, 103] : List ℚ).length ∧
        (∀ i, i < ([100, 102, 101, 105, 103] : List ℚ).length →
          (drawdown [100, 102, 101, 105, 103]).getD i 0 =
            ([100, 102, 101, 105, 103] : List ℚ).getD i 0 /
              listMax (([100, 102, 101, 105, 103] : List ℚ).take (i + 1)) - 1) ∧
        (∀ v ∈ drawdown [100, 102, 101, 105, 103], v ≤ 0) ∧
        (∀ i, i < ([100, 102, 101, 105, 103] : List ℚ).length →
          ([100, 102, 101, 105, 103] : List ℚ).getD i 0 =
            listMax (([100, 102, 101, 105, 103] : List ℚ).take (i + 1)) →
          (drawdown [100, 102, 101, 105, 103]).getD i 0 = 0) ∧
        (∀ m, max_drawdown [100, 102, 101, 105, 103] = some m →
          m ∈ drawdown [100, 102, 101, 105, 103] ∧
            ∀ v ∈ drawdown [100, 102, 101, 105, 103], m ≤ v)) :=
  ⟨by decide, C2_drawdown_spec [100, 102, 101, 105, 103] (by decide)⟩

/-! ## StressDetector (app.py line 114) -/

/-- `stress_periods = drawdown[drawdown < -0.3]` (app.py line 114): boolean
filtering of a pandas Series keeps its (index, value) pairs, in order. -/
def stress_periods (dd : List ℚ) : List (ℕ × ℚ) :=
  dd.enum.filter (fun iv => iv.2 < -(3 / 10 : ℚ))

/-- C9: the stress detector returns exactly the (index, value) pairs whose
value is strictly below `-0.30`, as a sublist of the enumerated curve (so in
original order); every breaching index is reported; and a curve with no value
below the threshold (in particular an all-zero curve) yields the empty list. -/
theorem C9_stress_periods_spec (dd : List ℚ) :
    (∀ iv ∈ stress_periods dd, iv.2 < -(3 / 10 : ℚ) ∧ dd.getD iv.1 0 = iv.2) ∧
    List.Sublist (stress_periods dd) dd.enum ∧
    (∀ i, i < dd.length → dd.getD i 0 < -(3 / 10 : ℚ) →
      (i, dd.getD i 0) ∈ stress_periods dd) ∧
    ((∀ v ∈ dd, v = 0) → stress_periods dd = []) := by
  refine ⟨?_, List.filter_sublist _, ?_, ?_⟩
  · intro iv hiv
    have hmem := List.mem_filter.mp hiv
    have hlt : iv.2 < -(3 / 10 : ℚ) := by simpa using hmem.2
    have henum := List.mem_enum_iff_getElem?.mp hmem.1
    obtain ⟨hb, hval⟩ := List.getElem?_eq_some.mp henum
    exact ⟨hlt, by rw [List.getD_eq_getElem _ _ hb, hval]⟩
  · intro i hi hlt
    apply List.mem_filter.mpr
    constructor
    · apply List.mem_enum_iff_getElem?.mpr
      rw [List.getD_eq_getElem _ _ hi]
      exact List.getElem?_eq_getElem hi
    · simpa using hlt
  · intro hz
    apply List.filter_eq_nil_iff.mpr
    intro iv hiv
    have henum := List.mem_enum_iff_getElem?.mp hiv
    obtain ⟨hb, hval⟩ := List.getElem?_eq_some.mp henum
    have : iv.2 ∈ dd := hval ▸ List.getElem_mem hb
    have h0 : iv.2 = 0 := hz _ this
    simp only [h0, decide_eq_true_eq]
    norm_num

/-- Witness for C9 at the concrete curve `[0, -1/2, -1/5]`. -/
theorem C9_witness :
    (∀ iv ∈ stress_periods [0, -1/2, -1/5],
      iv.2 < -(3 / 10 : ℚ) ∧ ([0, -1/2, -1/5] : List ℚ).getD iv.1 0 = iv.2) ∧
    List.Sublist (stress_periods [0, -1/2, -1/5]) ([0, -1/2, -1/5] : List ℚ).enum ∧
    (∀ i, i < ([0, -1/2, -1/5] : List ℚ).length →
      ([0, -1/2, -1/5] : List ℚ).getD i 0 < -(3 / 10 : ℚ) →
      (i, ([0, -1/2, -1/5] : List ℚ).getD i 0) ∈ stress_periods [0, -1/2, -1/5]) ∧
    ((∀ v ∈ ([0, -1/2, -1/5] : List ℚ), v = 0) → stress_periods [0, -1/2, -1/5] = []) :=
  C9_stress_periods_spec [0, -1/2, -1/5]

/-! ## CSV date-column detection (app.py lines 31-42) -/

/-- Outcome of `pd.to_datetime` on one cell of a column: a successful parse
(`ok`), a missing value mapped to NaT (`missing`), or a hard parse failure
that makes `pd.to_datetime(col, errors="raise")` raise (`err`). -/
inductive ParseOutcome : Type
  | ok : ParseOutcome
  | missing : ParseOutcome
  | err : ParseOutcome
deriving DecidableEq

/-- One iteration of the detection loop (app.py lines 34-40): the `try` block
survives only when no cell raises, and then
`parsed.notna().sum() > len(df) * 0.5` asks for strictly more than half the
rows to carry a non-NaT parsed date. -/
def colAccepted (rows : ℕ) (c : List ParseOutcome) : Bool :=
  c.all (fun x => x ≠ ParseOutcome.err) && decide (rows < 2 * c.count ParseOutcome.ok)

/-- The detection loop (app.py lines 32-41): scan the columns in order and
return the position of the first accepted one; `none` models the
`ValueError("No valid date column detected.")` (the spec's
`NoDateColumnError`). -/
def detectDateCol (rows : ℕ) : List (List ParseOutcome) → Option ℕ
  | [] => none
  | c :: cs =>
    if colAccepted rows c then some 0
    else (detectDateCol rows cs).map (· + 1)

/-- The claim's acceptance rule, written from the spec's words (§4.1): a
column qualifies when date parsing succeeds on strictly more than 50% of the
rows; parse failures on the remaining rows do not disqualify it. -/
def specColQualifies (rows : ℕ) (c : List ParseOutcome) : Bool :=
  decide (rows < 2 * c.count ParseOutcome.ok)

/-- The claim's detection rule: first column satisfying `specColQualifies`. -/
def specDetectDateCol (rows : ℕ) : List (List ParseOutcome) → Option ℕ
  | [] => none
  | c :: cs =>
    if specColQualifies rows c then some 0
    else (specDetectDateCol rows cs).map (· + 1)

/-- C8 counterexample: in a 4-row table whose single column parses as a date
on 3 rows and hard-fails on 1, the claim's rule (failures do not disqualify)
selects the column, but the code's `errors="raise"` call raises on the bad
cell, the column is skipped, and no date column is reported. -/
theorem C8_counterexample :
    detectDateCol 4
        [[ParseOutcome.ok, ParseOutcome.ok, ParseOutcome.ok, ParseOutcome.err]] = none ∧
      specDetectDateCol 4
        [[ParseOutcome.ok, ParseOutcome.ok, ParseOutcome.ok, ParseOutcome.err]] = some 0 := by
  decide

theorem detectDateCol_eq_some_iff (rows : ℕ) (cols : List (List ParseOutcome)) (j : ℕ) :
    detectDateCol rows cols = some j ↔
      ∃ h : j < cols.length,
        colAccepted rows (cols.get ⟨j, h⟩) = true ∧
          ∀ k (hk : k < j), colAccepted rows (cols.get ⟨k, by omega⟩) = false := by
  induction cols generalizing j with
  | nil => simp [detectDateCol]
  | cons c cs ih =>
    by_cases hc : colAccepted rows c = true
    · simp only [detectDateCol, hc, if_true]
      constructor
      · intro h0
        have hj : j = 0 := by
          have := Option.some.inj h0
          omega
        subst hj
        refine ⟨by simp, by simpa using hc, ?_⟩
        intro k hk
        omega
      · rintro ⟨h, hacc, hbefore⟩
        rcases Nat.eq_zero_or_pos j with hj | hj
        · subst hj; rfl
        · have h0 := hbefore 0 hj
          simp only [List.get] at h0
          rw [h0] at hc
          exact absurd hc (by simp)
    · have hc' : colAccepted rows c = false := by simpa using hc
      simp only [detectDateCol, hc', Bool.false_eq_true, if_false]
      cases j with
      | zero =>
        constructor
        · intro h0
          rcases Option.map_eq_some'.mp h0 with ⟨a, _, ha⟩
          omega
        · rintro ⟨h, hacc, _⟩
          simp only [List.get] at hacc
          rw [hacc] at hc'
          exact absurd hc' (by simp)
      | succ j' =>
        rw [show (detectDateCol rows cs).map (· + 1) = some (j' + 1) ↔
            detectDateCol rows cs = some j' from ?_, ih j']
        · constructor
          · rintro ⟨h, hacc, hbefore⟩
            refine ⟨by simpa using h, by simpa using hacc, ?_⟩
            intro k hk
            cases k with
            | zero => exact hc'
            | succ k' => simpa using hbefore k' (by omega)
          · rintro ⟨h, hacc, hbefore⟩
            refine ⟨by simpa using h, by simpa using hacc, ?_⟩
            intro k hk
            exact hbefore (k + 1) (by omega)
        · constructor
          · intro hmap
            rcases Option.map_eq_some'.mp hmap with ⟨a, ha, haeq⟩
            have : a = j' := by omega
            rw [← this]; exact ha
          · intro hsome
            rw [hsome]; rfl

theorem detectDateCol_eq_none_iff (rows : ℕ) (cols : List (List ParseOutcome)) :
    detectDateCol rows cols = none ↔ ∀ c ∈ cols, colAccepted rows c = false := by
  induction cols with
  | nil => simp [detectDateCol]
  | cons c cs ih =>
    by_cases hc : colAccepted rows c = true
    · simp only [detectDateCol, hc, if_true]
      constructor
      · intro h; exact absurd h (by simp)
      · intro h
        have hcc := h c (List.mem_cons_self c cs)
        rw [hcc] at hc
        exact absurd hc (by simp)
    · have hc' : colAccepted rows c = false := by simpa using hc
      simp only [detectDateCol, hc', Bool.false_eq_true, if_false]
      rw [Option.map_eq_none', ih]
      constructor
      · intro h x hx
        rcases List.mem_cons.mp hx with hxeq | hx'
        · rw [hxeq]; exact hc'
        · exact h x hx'
      · intro h x hx
        exact h x (List.mem_cons_of_mem c hx)

/-- C8 (amended): the detection scans the columns in order and selects the
first column on which `pd.to_datetime(..., errors="raise")` raises on no row
and strictly more than 50% of the rows parse to non-null dates; a single hard
parse failure disqualifies a column outright, and `NoDateColumnError` (`none`)
is raised exactly when no column meets this combined test. -/
theorem C8_detect_amended (rows : ℕ) (cols : List (List ParseOutcome)) :
    (∀ j, detectDateCol rows cols = some j ↔
      ∃ h : j < cols.length,
        colAccepted rows (cols.get ⟨j, h⟩) = true ∧
          ∀ k (hk : k < j), colAccepted rows (cols.get ⟨k, by omega⟩) = false) ∧
    (detectDateCol rows cols = none ↔ ∀ c ∈ cols, colAccepted rows c = false) :=
  ⟨fun j => detectDateCol_eq_some_iff rows cols j, detectDateCol_eq_none_iff rows cols⟩

/-! ## Annualized metrics (app.py lines 95-96, 100) -/

/-- numpy/pandas mean of a series: NaN (`none`) on an empty series. -/
def seriesMean (l : List ℚ) : Option ℚ :=
  if l.length = 0 then none else some (l.sum / (l.length : ℚ))

/-- `annual_return = (1 + returns.mean()) ** 252 - 1` (app.py line 95);
a NaN mean propagates to a NaN annualized return. -/
def annual_return (rs : List ℚ) : Option ℚ :=
  (seriesMean rs).map (fun m => (1 + m) ^ 252 - 1)

/-- pandas `Series.std()` (sample standard deviation, ddof = 1), carried as
its square, the sample variance (see the file comment): NaN (`none`) when
fewer than two observations. -/
def sampleVar (l : List ℚ) : Option ℚ :=
  if l.length < 2 then none
  else some ((l.map (fun x => (x - l.sum / (l.length : ℚ)) ^ 2)).sum / ((l.length : ℚ) - 1))

/-- `annual_volatility = returns.std() * np.sqrt(252)` (app.py line 96),
carried as its square `std² * 252`; a NaN std propagates. -/
def annual_volatility_sq (rs : List ℚ) : Option ℚ :=
  (sampleVar rs).map (fun v => v * 252)

/-- `down_days_pct = (returns < 0).mean() * 100` (app.py line 100): the mean
of an empty boolean series is NaN. -/
def down_days_pct (rs : List ℚ) : Option ℚ :=
  (seriesMean (rs.map (fun r => if r < 0 then 1 else 0))).map (fun m => m * 100)

/-- C6 code behavior at the failing input: the source has no minimum-length
check between preparing the series and computing metrics (app.py lines 83-100
raise nothing).  On a single-observation window the pipeline completes and
yields an empty return series and NaN (`none`) for the annualized return, the
annualized volatility and the downside frequency, instead of raising
`InsufficientDataError` as the spec requires. -/
theorem C6_single_row_nan_metrics :
    returns [100] = [] ∧
      annual_return (returns [100]) = none ∧
      annual_volatility_sq (returns [100]) = none ∧
      down_days_pct (returns [100]) = none := by
  decide

/-! ## RegimeAnalyzer (app.py lines 105-109) -/

/-- `returns.rolling(252).std() * np.sqrt(252)` (app.py line 105), window
size `w` as a parameter, carried as its square (`var * 252`): entry `i` is
NaN until the window is full (pandas `min_periods` defaults to the window
size), then the sample variance of the trailing `w` returns times 252. -/
def rolling_vol_sq (w : ℕ) (rs : List ℚ) : List (Option ℚ) :=
  (List.range rs.length).map (fun i =>
    if i + 1 < w then none
    else (sampleVar ((rs.take (i + 1)).drop (i + 1 - w))).map (fun v => v * 252))

/-- pandas `Series.median()` (app.py line 106), which skips NaN: `none` when
no entry is defined, otherwise the middle of the sorted defined values (the
average of the two middle ones for an even count). -/
def seriesMedian (l : List (Option ℚ)) : Option ℚ :=
  let v := dropna l
  let s := List.insertionSort (fun a b => a ≤ b) v
  if v.length = 0 then none
  else if v.length % 2 = 1 then some (s.getD (v.length / 2) 0)
  else some ((s.getD (v.length / 2 - 1) 0 + s.getD (v.length / 2) 0) / 2)

/-- The two regime labels (app.py line 107). -/
inductive Regime : Type
  | highVol : Regime
  | lowVol : Regime
deriving DecidableEq

/-- `np.where(rolling_vol > vol_threshold, "High Volatility", "Low Volatility")`
(app.py line 107): a NaN on either side of the comparison yields `False`,
hence the low-volatility label. -/
def regimeLabel (threshold v : Option ℚ) : Regime :=
  match v, threshold with
  | some x, some t => if t < x then Regime.highVol else Regime.lowVol
  | _, _ => Regime.lowVol

/-- The rows of `regime_df` after `.dropna()` (app.py line 108): row `i`
survives iff its rolling volatility is defined ("Returns" is never NaN and
"Regime" is a plain string); a surviving row carries the return index, the
return, the volatility value and the regime label. -/
def regime_rows (w : ℕ) (rs : List ℚ) : List (ℕ × ℚ × ℚ × Regime) :=
  (List.range rs.length).filterMap (fun i =>
    match (rolling_vol_sq w rs).getD i none with
    | some v => some (i, rs.getD i 0, v, regimeLabel (seriesMedian (rolling_vol_sq w rs)) (some v))
    | none => none)

/-- `regime_df.groupby("Regime")["Returns"]` (app.py line 109): the return
values aggregated for one label; the group's `count` is this list's length
and its `mean`/`std` are computed from exactly this list. -/
def regime_group (w : ℕ) (rs : List ℚ) (g : Regime) : List ℚ :=
  ((regime_rows w rs).filter (fun row => row.2.2.2 = g)).map (fun row => row.2.1)

theorem length_filterMap_eq_length_filter {α β : Type} (f : α → Option β) (L : List α) :
    (L.filterMap f).length = (L.filter (fun a => (f a).isSome)).length := by
  induction L with
  | nil => rfl
  | cons a t ih =>
    cases hfa : f a with
    | none => simp [List.filterMap_cons, hfa, ih]
    | some b => simp [List.filterMap_cons, hfa, ih]

theorem regime_filter_partition (l : List (ℕ × ℚ × ℚ × Regime)) :
    (l.filter (fun row => row.2.2.2 = Regime.highVol)).length +
        (l.filter (fun row => row.2.2.2 = Regime.lowVol)).length = l.length := by
  induction l with
  | nil => rfl
  | cons a t ih =>
    rcases a with ⟨i, r, v, g⟩
    cases g <;> simp [List.filter_cons, ih] <;> omega

theorem mem_regime_rows_isSome (w : ℕ) (rs : List ℚ) (row : ℕ × ℚ × ℚ × Regime)
    (hrow : row ∈ regime_rows w rs) :
    ((rolling_vol_sq w rs).getD row.1 none).isSome := by
  rcases List.mem_filterMap.mp hrow with ⟨i, _, hfi⟩
  cases hv : (rolling_vol_sq w rs).getD i none with
  | none => rw [hv] at hfi; exact absurd hfi (by simp)
  | some v =>
    rw [hv] at hfi
    have : row.1 = i := by
      have := Option.some.inj hfi
      rw [← this]
    rw [this, hv]
    rfl

/-- C7: the per-regime sample counts summed over both labels equal the number
of return entries with a defined rolling volatility, and a return entry whose
rolling volatility is undefined reaches no regime's aggregation list — hence
contributes to no regime's mean, standard deviation or count. -/
theorem C7_regime_counts (rs : List ℚ) :
    (regime_group 252 rs Regime.highVol).length +
        (regime_group 252 rs Regime.lowVol).length =
      ((List.range rs.length).filter
        (fun i => ((rolling_vol_sq 252 rs).getD i none).isSome)).length ∧
    ∀ i, i < rs.length → (rolling_vol_sq 252 rs).getD i none = none →
      ∀ g, i ∉ ((regime_rows 252 rs).filter (fun row => row.2.2.2 = g)).map
        (fun row => row.1) := by
  constructor
  · simp only [regime_group, List.length_map]
    rw [regime_filter_partition]
    simp only [regime_rows]
    rw [length_filterMap_eq_length_filter]
    congr 1
    apply List.filter_congr
    intro i hi
    cases hv : (rolling_vol_sq 252 rs).getD i none <;> simp [hv]
  · intro i hi hnone g hmem
    rcases List.mem_map.mp hmem with ⟨row, hrowf, hri⟩
    have hrow : row ∈ regime_rows 252 rs := List.mem_of_mem_filter hrowf
    have hsome := mem_regime_rows_isSome 252 rs row hrow
    rw [hri, hnone] at hsome
    exact absurd hsome (by simp)

/-- Witness for C7 at a concrete three-entry return series. -/
theorem C7_witness :
    (regime_group 252 [1/100, -1/200, 3/1000] Regime.highVol).length +
        (regime_group 252 [1/100, -1/200, 3/1000] Regime.lowVol).length =
      ((List.range ([1/100, -1/200, 3/1000] : List ℚ).length).filter
        (fun i => ((rolling_vol_sq 252 [1/100, -1/200, 3/1000]).getD i none).isSome)).length ∧
    ∀ i, i < ([1/100, -1/200, 3/1000] : List ℚ).length →
      (rolling_vol_sq 252 [1/100, -1/200, 3/1000]).getD i none = none →
      ∀ g, i ∉ ((regime_rows 252 [1/100, -1/200, 3/1000]).filter
        (fun row => row.2.2.2 = g)).map (fun row => row.1) :=
  C7_regime_counts [1/100, -1/200, 3/1000]

/-- C10: with fewer than 252 return entries the rolling window never fills:
every rolling-volatility entry is NaN, the regime table is empty after
`dropna`, and both regime groups are empty, so `regime_stats` has zero
groups; every function involved is total, so no error is raised. -/
theorem C10_short_series (rs : List ℚ) (h : rs.length < 252) :
    (∀ i, i < rs.length → (rolling_vol_sq 252 rs).getD i none = none) ∧
    regime_rows 252 rs = [] ∧
    regime_group 252 rs Regime.highVol = [] ∧
    regime_group 252 rs Regime.lowVol = [] := by
  have hnone : ∀ i, i < rs.length → (rolling_vol_sq 252 rs).getD i none = none := by
    intro i hi
    have hlen : i < (rolling_vol_sq 252 rs).length := by
      simpa [rolling_vol_sq] using hi
    rw [List.getD_eq_getElem _ _ hlen]
    simp only [rolling_vol_sq, List.getElem_map, List.getElem_range]
    have h1 : i + 1 < 252 := by omega
    simp [h1]
  have hrows : regime_rows 252 rs = [] := by
    simp only [regime_rows]
    apply List.filterMap_eq_nil_iff.mpr
    intro i hi
    rw [hnone i (List.mem_range.mp hi)]
  refine ⟨hnone, hrows, ?_, ?_⟩ <;> simp [regime_group, hrows]

/-- Witness for C10 at a concrete two-entry return series. -/
theorem C10_witness :
    ([1/100, -1/200] : List ℚ).length < 252 ∧
      ((∀ i, i < ([1/100, -1/200] : List ℚ).length →
          (rolling_vol_sq 252 [1/100, -1/200]).getD i none = none) ∧
        regime_rows 252 [1/100, -1/200] = [] ∧
        regime_group 252 [1/100, -1/200] Regime.highVol = [] ∧
        regime_group 252 [1/100, -1/200] Regime.lowVol = []) :=
  ⟨by decide, C10_short_series [1/100, -1/200] (by decide)⟩

/-! ## MonteCarloSimulator (app.py lines 179-201)

The loop draws `np.random.normal(mean_return, vol, days)` from the
process-global numpy generator.  We model that ambient generator as a stream
`z : ℕ → ℚ` of standard draws consumed left to right: trial `k` uses draws
`k*days .. k*days + days - 1`, and a normal sample is its location-scale form
`mean + vol * z`. -/

/-- `np.cumprod` continued from an accumulated product `a`. -/
def cumprodFrom (a : ℚ) : List ℚ → List ℚ
  | [] => []
  | x :: xs => (a * x) :: cumprodFrom (a * x) xs

/-- `np.cumprod` (app.py line 195): running products. -/
def cumprod (l : List ℚ) : List ℚ :=
  cumprodFrom 1 l

/-- `simulated_returns = np.random.normal(mean_return, vol, days)` for trial
`k` (app.py line 194). -/
def simulated_returns (mean vol : ℚ) (days : ℕ) (z : ℕ → ℚ) (k : ℕ) : List ℚ :=
  (List.range days).map (fun t => mean + vol * z (k * days + t))

/-- `path = last_price * np.cumprod(1 + simulated_returns)` (app.py line 195). -/
def simPath (lastPrice mean vol : ℚ) (days : ℕ) (z : ℕ → ℚ) (k : ℕ) : List ℚ :=
  (cumprod ((simulated_returns mean vol days z k).map (fun r => 1 + r))).map
    (fun c => lastPrice * c)

/-- `all_paths` (app.py lines 192-198): one simulated path per trial. -/
def all_paths (lastPrice mean vol : ℚ) (days numSims : ℕ) (z : ℕ → ℚ) :
    List (List ℚ) :=
  (List.range numSims).map (simPath lastPrice mean vol days z)

/-- The cross-section of the path matrix at day-offset `t` (`axis=0` in
app.py lines 199-201). -/
def pricesAt (paths : List (List ℚ)) (t : ℕ) : List ℚ :=
  paths.map (fun path => path.getD t 0)

/-- Linear interpolation into a (sorted) list at fractional position `h`:
the value between positions `⌊h⌋` and `⌈h⌉` (numpy's default percentile
interpolation). -/
def interpAt (s : List ℚ) (h : ℚ) : ℚ :=
  s.getD (Int.floor h).toNat 0 +
    (h - ((Int.floor h).toNat : ℚ)) *
      (s.getD (min ((Int.floor h).toNat + 1) (s.length - 1)) 0 -
        s.getD (Int.floor h).toNat 0)

/-- `np.percentile(a, q, axis=0)` on one cross-section (app.py lines
199-201): sort ascending and linearly interpolate at `h = (q/100)*(m-1)`. -/
def percentile (q : ℚ) (l : List ℚ) : ℚ :=
  interpAt (List.insertionSort (· ≤ ·) l) (q / 100 * ((l.length : ℚ) - 1))

/-- `p5`, `p50`, `p95` (app.py lines 199-201) as one function of the
percentile level `q` and the day-offset `t`. -/
def band (q lastPrice mean vol : ℚ) (days numSims : ℕ) (z : ℕ → ℚ) (t : ℕ) : ℚ :=
  percentile q (pricesAt (all_paths lastPrice mean vol days numSims z) t)

theorem cumprodFrom_replicate_one (a : ℚ) (n : ℕ) :
    cumprodFrom a (List.replicate n 1) = List.replicate n a := by
  induction n generalizing a with
  | zero => rfl
  | succ m ih => simp [List.replicate, cumprodFrom, ih]

theorem simPath_zero_vol (lastPrice : ℚ) (days : ℕ) (z : ℕ → ℚ) (k : ℕ) :
    simPath lastPrice 0 0 days z k = List.replicate days lastPrice := by
  have hr : simulated_returns 0 0 days z k = List.replicate days 0 := by
    simp [simulated_returns, List.map_const]
  simp [simPath, hr, cumprod, List.map_replicate, cumprodFrom_replicate_one]

theorem floor_toNat_lt (q : ℚ) (m : ℕ) (hm : 1 ≤ m) (hq0 : 0 ≤ q) (hq1 : q ≤ 100) :
    (Int.floor (q / 100 * ((m : ℚ) - 1))).toNat < m := by
  set h : ℚ := q / 100 * ((m : ℚ) - 1) with hh
  have hm1 : (0 : ℚ) ≤ (m : ℚ) - 1 := by
    have : (1 : ℚ) ≤ (m : ℚ) := by exact_mod_cast hm
    linarith
  have hfrac : q / 100 ≤ 1 := by
    rw [div_le_one (by norm_num : (0:ℚ) < 100)]
    linarith
  have hub : h ≤ (m : ℚ) - 1 := by
    rw [hh]
    nlinarith
  have hfl : Int.floor h ≤ (m : ℤ) - 1 := by
    have : ((m : ℤ) - 1 : ℤ) = Int.floor ((m : ℚ) - 1) := by
      rw [show ((m : ℚ) - 1) = (((m : ℤ) - 1 : ℤ) : ℚ) by push_cast; ring, Int.floor_intCast]
    rw [this]
    exact Int.floor_le_floor hub
  omega

/-- A constant cross-section has every percentile equal to the constant. -/
theorem percentile_replicate (q c : ℚ) (m : ℕ) (hm : 1 ≤ m)
    (hq0 : 0 ≤ q) (hq1 : q ≤ 100) :
    percentile q (List.replicate m c) = c := by
  have hsort : List.insertionSort (· ≤ ·) (List.replicate m c) = List.replicate m c := by
    rw [List.eq_replicate_iff]
    refine ⟨by rw [List.length_insertionSort, List.length_replicate], ?_⟩
    intro b hb
    have hbm : b ∈ List.replicate m c := by
      have hperm := List.perm_insertionSort (· ≤ ·) (List.replicate m c)
      exact hperm.mem_iff.mp hb
    exact List.eq_of_mem_replicate hbm
  have hlen : (List.replicate m c : List ℚ).length = m := List.length_replicate m c
  have hlo := floor_toNat_lt q m hm hq0 hq1
  set lo : ℕ := (Int.floor (q / 100 * ((m : ℚ) - 1))).toNat with hlodef
  have hhi : min (lo + 1) ((List.replicate m c : List ℚ).length - 1) < m := by
    rw [hlen]; omega
  simp only [percentile, hsort, interpAt, hlen]
  rw [List.getD_eq_getElem _ _ (by rw [hlen]; exact hlo),
    List.getD_eq_getElem _ _ (by rw [hlen] at hhi ⊢; exact hhi)]
  simp [List.getElem_replicate]

/-- C3: with `meanReturn = 0` and `volatility = 0` every simulated path
equals `lastPrice` at every day-offset, whatever the random draws, and
therefore the p5, p50 and p95 bands all equal `lastPrice` at every offset
within the horizon. -/
theorem C3_zero_vol (lastPrice : ℚ) (days numSims : ℕ) (z : ℕ → ℚ)
    (hsims : 1 ≤ numSims) :
    (∀ k, k < numSims → ∀ t, t < days →
      (simPath lastPrice 0 0 days z k).getD t 0 = lastPrice) ∧
    ∀ t, t < days →
      band 5 lastPrice 0 0 days numSims z t = lastPrice ∧
      band 50 lastPrice 0 0 days numSims z t = lastPrice ∧
      band 95 lastPrice 0 0 days numSims z t = lastPrice := by
  have hpath : ∀ k t, t < days →
      (simPath lastPrice 0 0 days z k).getD t 0 = lastPrice := by
    intro k t ht
    rw [simPath_zero_vol]
    rw [List.getD_eq_getElem _ _ (by rw [List.length_replicate]; exact ht)]
    simp
  have hcross : ∀ t, t < days →
      pricesAt (all_paths lastPrice 0 0 days numSims z) t =
        List.replicate numSims lastPrice := by
    intro t ht
    simp only [pricesAt, all_paths, List.map_map]
    rw [List.eq_replicate_iff]
    constructor
    · simp
    · intro b hb
      rcases List.mem_map.mp hb with ⟨k, hk, hbk⟩
      rw [← hbk]
      simpa using hpath k t ht
  refine ⟨fun k _ t ht => hpath k t ht, ?_⟩
  intro t ht
  have hb : ∀ q, 0 ≤ q → q ≤ 100 →
      band q lastPrice 0 0 days numSims z t = lastPrice := by
    intro q h0 h1
    rw [band, hcross t ht]
    exact percentile_replicate q lastPrice numSims hsims h0 h1
  exact ⟨hb 5 (by norm_num) (by norm_num), hb 50 (by norm_num) (by norm_num),
    hb 95 (by norm_num) (by norm_num)⟩

/-- Witness for C3 at a concrete configuration with a non-constant draw
stream (2-day horizon, 3 trials). -/
theorem C3_witness :
    1 ≤ 3 ∧
      ((∀ k, k < 3 → ∀ t, t < 2 →
        (simPath 100 0 0 2 (fun n => (n : ℚ) + 7) k).getD t 0 = 100) ∧
      ∀ t, t < 2 →
        band 5 100 0 0 2 3 (fun n => (n : ℚ) + 7) t = 100 ∧
        band 50 100 0 0 2 3 (fun n => (n : ℚ) + 7) t = 100 ∧
        band 95 100 0 0 2 3 (fun n => (n : ℚ) + 7) t = 100) :=
  ⟨by decide, C3_zero_vol 100 2 3 (fun n => (n : ℚ) + 7) (by decide)⟩

/-- C5 counterexample: the simulation loop draws with `np.random.normal`
from the process-global numpy generator (app.py line 194); no generator is
injected and no seed is ever set.  With identical inputs, two runs whose
ambient global-generator streams differ produce different median outputs, so
the percentile bands are not reproducible from the call's inputs — there is
no seed parameter that could fix them. -/
theorem C5_counterexample :
    band 50 100 0 1 1 1 (fun _ => 0) 0 ≠ band 50 100 0 1 1 1 (fun _ => 1) 0 := by
  have h1 : band 50 100 0 1 1 1 (fun _ => 0) 0 = 100 := by
    norm_num [band, percentile, interpAt, pricesAt, all_paths, simPath,
      simulated_returns, cumprod, cumprodFrom, List.range_succ]
  have h2 : band 50 100 0 1 1 1 (fun _ => 1) 0 = 200 := by
    norm_num [band, percentile, interpAt, pricesAt, all_paths, simPath,
      simulated_returns, cumprod, cumprodFrom, List.range_succ]
  rw [h1, h2]
  norm_num

/-- C5 (amended): the Monte Carlo step is a deterministic function of its
inputs together with the ambient draw stream, and consumes only the first
`numSims * days` draws: two runs whose global generator yields the same
draws (e.g. the global RNG restored to an identical state before the loop)
produce identical p5/p50/p95 bands. -/
theorem C5_stream_determinism (lastPrice mean vol : ℚ) (days numSims : ℕ)
    (z₁ z₂ : ℕ → ℚ) (hagree : ∀ n, n < numSims * days → z₁ n = z₂ n)
    (q : ℚ) (t : ℕ) :
    band q lastPrice mean vol days numSims z₁ t =
      band q lastPrice mean vol days numSims z₂ t := by
  have hpaths : all_paths lastPrice mean vol days numSims z₁ =
      all_paths lastPrice mean vol days numSims z₂ := by
    simp only [all_paths]
    apply List.map_congr_left
    intro k hk
    have hk' : k < numSims := List.mem_range.mp hk
    simp only [simPath, simulated_returns]
    have hret : (List.range days).map (fun u => mean + vol * z₁ (k * days + u)) =
        (List.range days).map (fun u => mean + vol * z₂ (k * days + u)) := by
      apply List.map_congr_left
      intro u hu
      have hu0 : u < days := List.mem_range.mp hu
      have hlt : k * days + u < numSims * days := by
        have h2 : (k + 1) * days ≤ numSims * days := Nat.mul_le_mul_right days hk'
        have h3 : (k + 1) * days = k * days + days := by ring
        omega
      rw [hagree (k * days + u) hlt]
    rw [hret]
  rw [band, band, hpaths]

/-- Witness for C5 (amended): two streams that agree on the consumed prefix
but differ later give byte-identical bands. -/
theorem C5_witness :
    (∀ n, n < 2 * 1 → (fun m : ℕ => (m : ℚ)) n =
      (fun m : ℕ => if m < 2 then (m : ℚ) else 99) n) ∧
      band 50 100 (1/100) (1/50) 1 2 (fun m : ℕ => (m : ℚ)) 0 =
        band 50 100 (1/100) (1/50) 1 2 (fun m : ℕ => if m < 2 then (m : ℚ) else 99) 0 :=
  ⟨by decide,
    C5_stream_determinism 100 (1/100) (1/50) 1 2 _ _ (by decide) 50 0⟩

theorem sorted_getD_mono (s : List ℚ) (hs : List.Sorted (· ≤ ·) s)
    (i j : ℕ) (hij : i ≤ j) (hj : j < s.length) :
    s.getD i 0 ≤ s.getD j 0 := by
  have hi : i < s.length := lt_of_le_of_lt hij hj
  rw [List.getD_eq_getElem _ _ hi, List.getD_eq_getElem _ _ hj]
  have h := List.Sorted.rel_get_of_le hs (a := ⟨i, hi⟩) (b := ⟨j, hj⟩)
    (by exact hij)
  simpa using h

/-- Monotonicity of linear interpolation into a sorted list. -/
theorem interpAt_mono (s : List ℚ) (hs : List.Sorted (· ≤ ·) s) (hne : s ≠ [])
    (h₁ h₂ : ℚ) (h10 : 0 ≤ h₁) (h12 : h₁ ≤ h₂) (hub : h₂ ≤ (s.length : ℚ) - 1) :
    interpAt s h₁ ≤ interpAt s h₂ := by
  have hm : 1 ≤ s.length := List.length_pos.mpr hne
  have h20 : 0 ≤ h₂ := le_trans h10 h12
  set m := s.length with hmdef
  set lo₁ : ℕ := (Int.floor h₁).toNat with hlo₁
  set lo₂ : ℕ := (Int.floor h₂).toNat with hlo₂
  have hf₁ : (0 : ℤ) ≤ Int.floor h₁ := Int.floor_nonneg.mpr h10
  have hf₂ : (0 : ℤ) ≤ Int.floor h₂ := Int.floor_nonneg.mpr h20
  have hc₁ : ((lo₁ : ℤ) : ℚ) = ((Int.floor h₁ : ℤ) : ℚ) := by
    rw [hlo₁, Int.toNat_of_nonneg hf₁]
  have hc₂ : ((lo₂ : ℤ) : ℚ) = ((Int.floor h₂ : ℤ) : ℚ) := by
    rw [hlo₂, Int.toNat_of_nonneg hf₂]
  have hcast₁ : ((lo₁ : ℚ)) = ((Int.floor h₁ : ℤ) : ℚ) := by
    rw [← hc₁]; push_cast; ring
  have hcast₂ : ((lo₂ : ℚ)) = ((Int.floor h₂ : ℤ) : ℚ) := by
    rw [← hc₂]; push_cast; ring
  have hlole₁ : (lo₁ : ℚ) ≤ h₁ := by rw [hcast₁]; exact Int.floor_le h₁
  have hlole₂ : (lo₂ : ℚ) ≤ h₂ := by rw [hcast₂]; exact Int.floor_le h₂
  have hfrac₁ : h₁ - (lo₁ : ℚ) < 1 := by
    rw [hcast₁]
    have := Int.lt_floor_add_one h₁
    linarith
  have hfloorle : Int.floor h₂ ≤ (m : ℤ) - 1 := by
    have hend : ((m : ℤ) - 1 : ℤ) = Int.floor ((m : ℚ) - 1) := by
      rw [show ((m : ℚ) - 1) = (((m : ℤ) - 1 : ℤ) : ℚ) by push_cast; ring,
        Int.floor_intCast]
    rw [hend]
    exact Int.floor_le_floor hub
  have hlo₂m : lo₂ ≤ m - 1 := by omega
  have hlo₁₂ : lo₁ ≤ lo₂ := by
    have := Int.floor_le_floor h12
    omega
  have hlo₁m : lo₁ ≤ m - 1 := le_trans hlo₁₂ hlo₂m
  set hi₁ : ℕ := min (lo₁ + 1) (m - 1) with hhi₁
  set hi₂ : ℕ := min (lo₂ + 1) (m - 1) with hhi₂
  have hi₁m : hi₁ < m := by omega
  have hi₂m : hi₂ < m := by omega
  have hlo₁hi₁ : lo₁ ≤ hi₁ := by omega
  have hlo₂hi₂ : lo₂ ≤ hi₂ := by omega
  have hab : s.getD lo₁ 0 ≤ s.getD hi₁ 0 := sorted_getD_mono s hs lo₁ hi₁ hlo₁hi₁ hi₁m
  have hab' : s.getD lo₂ 0 ≤ s.getD hi₂ 0 := sorted_getD_mono s hs lo₂ hi₂ hlo₂hi₂ hi₂m
  simp only [interpAt, ← hlo₁, ← hlo₂, ← hmdef, ← hhi₁, ← hhi₂]
  rcases Nat.lt_or_ge lo₁ lo₂ with hlt | hge
  · -- the two interpolation cells are distinct: pass through the cell ends
    have hhi₁lo₂ : hi₁ ≤ lo₂ := by omega
    have hmid : s.getD hi₁ 0 ≤ s.getD lo₂ 0 :=
      sorted_getD_mono s hs hi₁ lo₂ hhi₁lo₂ (by omega)
    have hstep1 : s.getD lo₁ 0 + (h₁ - (lo₁ : ℚ)) * (s.getD hi₁ 0 - s.getD lo₁ 0) ≤
        s.getD hi₁ 0 := by nlinarith
    have hstep3 : s.getD lo₂ 0 ≤
        s.getD lo₂ 0 + (h₂ - (lo₂ : ℚ)) * (s.getD hi₂ 0 - s.getD lo₂ 0) := by nlinarith
    linarith
  · -- same interpolation cell
    have heq : lo₁ = lo₂ := le_antisymm hlo₁₂ hge
    rw [heq] at hfrac₁ hlole₁ ⊢
    have heqhi : hi₁ = hi₂ := by rw [hhi₁, hhi₂, heq]
    rw [heqhi]
    have hdiff : h₁ - (lo₂ : ℚ) ≤ h₂ - (lo₂ : ℚ) := by linarith
    nlinarith

/-- numpy's linear-interpolation percentile is monotone in the level `q` on a
fixed nonempty sample. -/
theorem percentile_mono (l : List ℚ) (hne : l ≠ []) (q₁ q₂ : ℚ)
    (hq0 : 0 ≤ q₁) (hq12 : q₁ ≤ q₂) (hq100 : q₂ ≤ 100) :
    percentile q₁ l ≤ percentile q₂ l := by
  have hs : List.Sorted (· ≤ ·) (List.insertionSort (· ≤ ·) l) :=
    List.sorted_insertionSort (· ≤ ·) l
  have hlen : (List.insertionSort (· ≤ ·) l).length = l.length :=
    List.length_insertionSort (· ≤ ·) l
  have hm : 1 ≤ l.length := List.length_pos.mpr hne
  have hm' : (1 : ℚ) ≤ (l.length : ℚ) := by exact_mod_cast hm
  have hsne : List.insertionSort (· ≤ ·) l ≠ [] := by
    intro hnil
    have hl0 := congrArg List.length hnil
    rw [hlen, List.length_nil] at hl0
    omega
  apply interpAt_mono _ hs hsne
  · have : (0 : ℚ) ≤ q₁ / 100 := by positivity
    nlinarith
  · have h1 : q₁ / 100 ≤ q₂ / 100 := by linarith
    nlinarith
  · rw [hlen]
    have h2 : q₂ / 100 ≤ 1 := by
      rw [div_le_one (by norm_num : (0:ℚ) < 100)]
      exact hq100
    nlinarith

/-- C4: for any nonempty set of simulated paths and every day-offset, the
percentile bands computed across paths at that offset are ordered:
`p5[t] ≤ p50[t] ≤ p95[t]`. -/
theorem C4_percentile_bands (paths : List (List ℚ)) (hne : paths ≠ []) (t : ℕ) :
    percentile 5 (pricesAt paths t) ≤ percentile 50 (pricesAt paths t) ∧
      percentile 50 (pricesAt paths t) ≤ percentile 95 (pricesAt paths t) := by
  have hne' : pricesAt paths t ≠ [] := by
    simp only [pricesAt, ne_eq, List.map_eq_nil_iff]
    exact hne
  exact ⟨percentile_mono _ hne' 5 50 (by norm_num) (by norm_num) (by norm_num),
    percentile_mono _ hne' 50 95 (by norm_num) (by norm_num) (by norm_num)⟩

/-- Witness for C4 on the code's own path matrix (2 trials, 2-day horizon,
nonzero mean and volatility, a non-constant draw stream). -/
theorem C4_witness :
    all_paths 100 (1/100) (1/50) 2 2 (fun n => (n : ℚ)) ≠ [] ∧
      (percentile 5 (pricesAt (all_paths 100 (1/100) (1/50) 2 2 (fun n => (n : ℚ))) 1) ≤
          percentile 50 (pricesAt (all_paths 100 (1/100) (1/50) 2 2 (fun n => (n : ℚ))) 1) ∧
        percentile 50 (pricesAt (all_paths 100 (1/100) (1/50) 2 2 (fun n => (n : ℚ))) 1) ≤
          percentile 95 (pricesAt (all_paths 100 (1/100) (1/50) 2 2 (fun n => (n : ℚ))) 1)) :=
  ⟨by simp [all_paths], C4_percentile_bands _ (by simp [all_paths]) 1⟩
